import Mathlib

/-!
Verification development for the kraken-pnl-calculator program
(`src/main.rs`).  The program fetches executed trades (and, when a user
reference is given, closed orders) from a paginated remote API and
computes FIFO realized/unrealized PnL together with volume statistics.

The Rust source works on 64-bit floats; here every numeric quantity is
embedded as a rational number (`ℚ`), i.e. the arithmetic is interpreted
exactly.  Machine parsing of decimal strings (`trade.vol.parse()` etc.)
is modelled by storing the parsed rational directly in the record.
-/

namespace KrakenPnl

/-- Trade record, mirroring `struct Trade` in `src/main.rs`.  The decimal
string fields (`price`, `fee`, `vol`, `cost`) are embedded as the exact
rational values they parse to. -/
structure Trade where
  ordertxid : String
  pair : String
  time : ℚ
  side : String
  price : ℚ
  fee : ℚ
  vol : ℚ
  cost : ℚ
  ordertype : String
  deriving DecidableEq, Repr

/-- Truncation of a rational toward zero, the semantics of Rust's
`as i64` cast from `f64` (ignoring saturation at the extremes). -/
def truncRat (x : ℚ) : ℤ :=
  if 0 ≤ x then ⌊x⌋ else -⌊-x⌋

/-- Calendar year of a nanosecond timestamp, following chrono's
`DateTime::from_timestamp_nanos(n).year()`: seconds by euclidean
division, days by euclidean division, then the standard proleptic
Gregorian civil-from-days computation. -/
def yearOfNanos (n : ℤ) : ℤ :=
  let secs := Int.fdiv n 1000000000
  let days := Int.fdiv secs 86400
  let z := days + 719468
  let era := Int.fdiv z 146097
  let doe := z - era * 146097
  let yoe := (doe - doe / 1460 + doe / 36524 - doe / 146096) / 365
  let y := yoe + era * 400
  let doy := doe - (365 * yoe + yoe / 4 - yoe / 100)
  let mp := (5 * doy + 2) / 153
  let m := if mp < 10 then mp + 3 else mp - 9
  if m ≤ 2 then y + 1 else y

/-- Calendar year derived from a trade timestamp, as the Rust source
does at line 321: `DateTime::from_timestamp_nanos((trade.time * 1e9) as
i64).year()`. -/
def tradeYearOf (time : ℚ) : ℤ :=
  yearOfNanos (truncRat (time * 1000000000))

/-- State of one run of `compute_fifo_pnl`: the FIFO queue of
`(amount, cost)` lots plus the mutable accumulators of the Rust
function (lines 309–318). -/
@[ext] structure EngineState where
  fifo_queue : List (ℚ × ℚ)
  realized_pnl : ℚ
  balance : ℚ
  price : ℚ
  total_buy_volume_base : ℚ
  total_sell_volume_base : ℚ
  total_buy_volume_quote : ℚ
  total_sell_volume_quote : ℚ
  total_cost_of_sold_assets : ℚ
  total_value_of_sold_assets : ℚ
  deriving DecidableEq, Repr

/-- Initial engine state: empty queue, all accumulators zero
(`src/main.rs` lines 309–318). -/
def initState : EngineState :=
  ⟨[], 0, 0, 0, 0, 0, 0, 0, 0, 0⟩

/-- Inner `while` loop of the sell branch (`src/main.rs` lines
338–352): consume lots from the front of the queue while the remaining
sell amount is positive and the queue is non-empty.  Returns the
accumulated cost basis and the queue left behind. -/
def sellLoop (toSell : ℚ) : List (ℚ × ℚ) → ℚ × List (ℚ × ℚ)
  | [] => (0, [])
  | (fifo_amount, fifo_cost) :: rest =>
    if 0 < toSell then
      if fifo_amount ≤ toSell then
        let r := sellLoop (toSell - fifo_amount) rest
        (fifo_cost + r.1, r.2)
      else
        let partial_cost := fifo_cost / fifo_amount * toSell
        (partial_cost, (fifo_amount - toSell, fifo_cost - partial_cost) :: rest)
    else (0, (fifo_amount, fifo_cost) :: rest)

/-- Body of the `for trade in trades` loop of `compute_fifo_pnl`
(`src/main.rs` lines 320–368).  Note that `price` is assigned from the
trade before the side test, so every trade (whatever its `side`)
updates the running last-seen price. -/
def stepTrade (year : Option ℕ) (s : EngineState) (t : Trade) : EngineState :=
  let trade_year : ℤ := tradeYearOf t.time
  let amount : ℚ := t.vol
  let price : ℚ := t.price
  let fee : ℚ := t.fee
  if t.side = "buy" then
    let total_cost : ℚ := amount * price + fee
    { s with
      fifo_queue := s.fifo_queue ++ [(amount, total_cost)]
      price := price
      balance := s.balance + amount
      total_buy_volume_base := s.total_buy_volume_base + amount
      total_buy_volume_quote := s.total_buy_volume_quote + total_cost }
  else if t.side = "sell" then
    let sell_proceeds : ℚ := amount * price - fee
    let r := sellLoop amount s.fifo_queue
    let cost_basis : ℚ := r.1
    let pnl : ℚ := sell_proceeds - cost_basis
    { s with
      fifo_queue := r.2
      price := price
      realized_pnl := s.realized_pnl +
        (match year with
         | some y => if trade_year = (y : ℤ) then pnl else 0
         | none => pnl)
      balance := s.balance - amount
      total_sell_volume_base := s.total_sell_volume_base + amount
      total_sell_volume_quote := s.total_sell_volume_quote + sell_proceeds
      total_cost_of_sold_assets := s.total_cost_of_sold_assets + cost_basis
      total_value_of_sold_assets := s.total_value_of_sold_assets + sell_proceeds }
  else
    { s with price := price }

/-- Engine state after processing a whole trade list. -/
def finalState (trades : List Trade) (year : Option ℕ) : EngineState :=
  trades.foldl (stepTrade year) initState

/-- Result record of `compute_fifo_pnl`, naming the nine components of
the returned tuple (`src/main.rs` lines 375–385). -/
@[ext] structure PnlResult where
  realized_pnl : ℚ
  unrealized_pnl : ℚ
  balance : ℚ
  total_buy_volume_base : ℚ
  total_sell_volume_base : ℚ
  total_buy_volume_quote : ℚ
  total_sell_volume_quote : ℚ
  total_cost_of_sold_assets : ℚ
  total_value_of_sold_assets : ℚ
  deriving DecidableEq, Repr

/-- Unrealized PnL of a queue at a given mark price (`src/main.rs`
lines 370–373). -/
def unrealizedOf (price : ℚ) (q : List (ℚ × ℚ)) : ℚ :=
  (q.map (fun lot => (price - lot.2 / lot.1) * lot.1)).sum

/-- The function `compute_fifo_pnl` of `src/main.rs` (lines 305–386):
fold the trade list through `stepTrade`, then mark the remaining lots
at the last-seen price. -/
def compute_fifo_pnl (trades : List Trade) (year : Option ℕ) : PnlResult :=
  let s := finalState trades year
  { realized_pnl := s.realized_pnl
    unrealized_pnl := unrealizedOf s.price s.fifo_queue
    balance := s.balance
    total_buy_volume_base := s.total_buy_volume_base
    total_sell_volume_base := s.total_sell_volume_base
    total_buy_volume_quote := s.total_buy_volume_quote
    total_sell_volume_quote := s.total_sell_volume_quote
    total_cost_of_sold_assets := s.total_cost_of_sold_assets
    total_value_of_sold_assets := s.total_value_of_sold_assets }

/-- Total base-currency amount held in a queue of lots. -/
def sumAmount (q : List (ℚ × ℚ)) : ℚ :=
  (q.map Prod.fst).sum

/-- Total remaining acquisition cost held in a queue of lots. -/
def sumCost (q : List (ℚ × ℚ)) : ℚ :=
  (q.map Prod.snd).sum

theorem sellLoop_nil (toSell : ℚ) : sellLoop toSell [] = (0, []) := rfl

theorem sellLoop_cons (toSell fifo_amount fifo_cost : ℚ) (rest : List (ℚ × ℚ)) :
    sellLoop toSell ((fifo_amount, fifo_cost) :: rest)
      = if 0 < toSell then
          if fifo_amount ≤ toSell then
            (fifo_cost + (sellLoop (toSell - fifo_amount) rest).1,
             (sellLoop (toSell - fifo_amount) rest).2)
          else
            (fifo_cost / fifo_amount * toSell,
             (fifo_amount - toSell,
              fifo_cost - fifo_cost / fifo_amount * toSell) :: rest)
        else (0, (fifo_amount, fifo_cost) :: rest) := rfl

theorem stepTrade_buy (year : Option ℕ) (s : EngineState) (t : Trade)
    (h : t.side = "buy") :
    stepTrade year s t =
      { s with
        fifo_queue := s.fifo_queue ++ [(t.vol, t.vol * t.price + t.fee)]
        price := t.price
        balance := s.balance + t.vol
        total_buy_volume_base := s.total_buy_volume_base + t.vol
        total_buy_volume_quote := s.total_buy_volume_quote + (t.vol * t.price + t.fee) } := by
  simp [stepTrade, h]

theorem stepTrade_sell (year : Option ℕ) (s : EngineState) (t : Trade)
    (h : t.side = "sell") :
    stepTrade year s t =
      { s with
        fifo_queue := (sellLoop t.vol s.fifo_queue).2
        price := t.price
        realized_pnl := s.realized_pnl +
          (match year with
           | some y =>
             if tradeYearOf t.time = (y : ℤ) then
               (t.vol * t.price - t.fee) - (sellLoop t.vol s.fifo_queue).1
             else 0
           | none => (t.vol * t.price - t.fee) - (sellLoop t.vol s.fifo_queue).1)
        balance := s.balance - t.vol
        total_sell_volume_base := s.total_sell_volume_base + t.vol
        total_sell_volume_quote := s.total_sell_volume_quote + (t.vol * t.price - t.fee)
        total_cost_of_sold_assets := s.total_cost_of_sold_assets + (sellLoop t.vol s.fifo_queue).1
        total_value_of_sold_assets :=
          s.total_value_of_sold_assets + (t.vol * t.price - t.fee) } := by
  simp [stepTrade, h]

theorem stepTrade_other (year : Option ℕ) (s : EngineState) (t : Trade)
    (h1 : t.side ≠ "buy") (h2 : t.side ≠ "sell") :
    stepTrade year s t = { s with price := t.price } := by
  simp [stepTrade, h1, h2]

theorem sumAmount_nonneg {q : List (ℚ × ℚ)} (h : ∀ lot ∈ q, 0 ≤ lot.1) :
    0 ≤ sumAmount q := by
  refine List.sum_nonneg ?_
  intro x hx
  rcases List.mem_map.mp hx with ⟨lot, hlot, rfl⟩
  exact h lot hlot

/-- Over-selling: when the sell amount strictly exceeds the total amount
in the queue, the sell loop drains the whole queue and returns the total
available cost. -/
theorem sellLoop_drain (q : List (ℚ × ℚ)) (toSell : ℚ)
    (hpos : ∀ lot ∈ q, 0 ≤ lot.1) (hover : sumAmount q < toSell) :
    sellLoop toSell q = (sumCost q, []) := by
  induction q generalizing toSell with
  | nil => simp [sellLoop_nil, sumCost]
  | cons lot rest ih =>
    obtain ⟨a, c⟩ := lot
    have ha : (0:ℚ) ≤ a := hpos (a, c) (List.mem_cons_self _ _)
    have hrest : ∀ lot ∈ rest, 0 ≤ lot.1 := fun l hl => hpos l (List.mem_cons_of_mem _ hl)
    have hsum : sumAmount ((a, c) :: rest) = a + sumAmount rest := by
      simp [sumAmount]
    have hrsum : (0:ℚ) ≤ sumAmount rest := sumAmount_nonneg hrest
    have h0 : 0 < toSell := lt_of_le_of_lt (by linarith) hover
    have hle : a ≤ toSell := by rw [hsum] at hover; linarith
    have hover' : sumAmount rest < toSell - a := by rw [hsum] at hover; linarith
    rw [sellLoop_cons, if_pos h0, if_pos hle, ih (toSell - a) hrest hover']
    simp [sumCost]

/-- Concrete oversell scenario: a sell of 2.0 units (price 10, fee 0). -/
def tradeC2 : Trade :=
  ⟨"TX1", "XXBTZEUR", 1717200000, "sell", 10, 0, 2, 20, "limit"⟩

/-- Concrete engine state holding a single 1.0-unit lot of cost 101. -/
def stateC2 : EngineState :=
  { initState with fifo_queue := [(1, 101)] }

/-- Claim C1: while the remaining sell amount is positive, `compute_fifo_pnl`
consumes lots from the front of the FIFO queue: a front lot whose amount
is at most the remaining sell amount is removed and its full remaining
cost added to the cost basis, the loop continuing with the reduced
amount; otherwise the proportional slice
`partial_cost = (lot.cost / lot.amount) * remaining` is added, the lot
shrinks by exactly that slice, stays at the front, and the remaining
sell amount becomes 0 (the loop stops). -/
theorem sell_consumes_front_lots (fifo_amount fifo_cost : ℚ)
    (rest : List (ℚ × ℚ)) (toSell : ℚ) (h : 0 < toSell) :
    (fifo_amount ≤ toSell →
      sellLoop toSell ((fifo_amount, fifo_cost) :: rest)
        = (fifo_cost + (sellLoop (toSell - fifo_amount) rest).1,
           (sellLoop (toSell - fifo_amount) rest).2))
    ∧ (toSell < fifo_amount →
      sellLoop toSell ((fifo_amount, fifo_cost) :: rest)
        = (fifo_cost / fifo_amount * toSell,
           (fifo_amount - toSell,
            fifo_cost - fifo_cost / fifo_amount * toSell) :: rest)) := by
  constructor
  · intro hle
    rw [sellLoop_cons, if_pos h, if_pos hle]
  · intro hlt
    rw [sellLoop_cons, if_pos h, if_neg (not_le.mpr hlt)]

/-- Witness for C1: partial consumption of a 5-unit lot of cost 10 by a
sell of 2 units leaves lot (3, 6) at the front. -/
theorem sell_consumes_front_lots_witness :
    ((0:ℚ) < 2 ∧ (2:ℚ) < 5) ∧
    sellLoop 2 [((5:ℚ), 10)]
      = ((10:ℚ) / 5 * 2, [((5:ℚ) - 2, (10:ℚ) - 10 / 5 * 2)]) :=
  ⟨⟨by norm_num, by norm_num⟩,
   (sell_consumes_front_lots 5 10 [] 2 (by norm_num)).2 (by norm_num)⟩

/-- Claim C2: a sell whose amount strictly exceeds the total amount in the
queue raises no error: the loop stops with the queue empty, the cost
basis is exactly the cost of the lots that were available, and the
sell's pnl is proceeds minus that partial cost basis. -/
theorem oversell_drains_available (s : EngineState) (t : Trade)
    (hside : t.side = "sell")
    (hpos : ∀ lot ∈ s.fifo_queue, 0 ≤ lot.1)
    (hover : sumAmount s.fifo_queue < t.vol) :
    sellLoop t.vol s.fifo_queue = (sumCost s.fifo_queue, [])
    ∧ (stepTrade none s t).fifo_queue = []
    ∧ (stepTrade none s t).realized_pnl
        = s.realized_pnl + ((t.vol * t.price - t.fee) - sumCost s.fifo_queue) := by
  have hq := sellLoop_drain s.fifo_queue t.vol hpos hover
  refine ⟨hq, ?_, ?_⟩
  · rw [stepTrade_sell none s t hside]
    simp [hq]
  · rw [stepTrade_sell none s t hside]
    simp [hq]

/-- Witness for C2: selling 2.0 units against a single 1.0-unit lot of
cost 101 empties the queue and uses exactly 101 as cost basis. -/
theorem oversell_drains_available_witness :
    sumAmount stateC2.fifo_queue < tradeC2.vol ∧
    (sellLoop tradeC2.vol stateC2.fifo_queue = (sumCost stateC2.fifo_queue, [])
      ∧ (stepTrade none stateC2 tradeC2).fifo_queue = []
      ∧ (stepTrade none stateC2 tradeC2).realized_pnl
          = stateC2.realized_pnl
            + ((tradeC2.vol * tradeC2.price - tradeC2.fee) - sumCost stateC2.fifo_queue)) :=
  ⟨by norm_num [sumAmount, stateC2, tradeC2, initState],
   oversell_drains_available stateC2 tradeC2 rfl
     (by norm_num [stateC2, initState])
     (by norm_num [sumAmount, stateC2, tradeC2, initState])⟩

/-- Cost moved to the cost basis and cost left in the queue add up to
the cost that was in the queue: one pass of the sell loop conserves
acquisition cost. -/
theorem sellLoop_conserves_cost (toSell : ℚ) (q : List (ℚ × ℚ)) :
    (sellLoop toSell q).1 + sumCost (sellLoop toSell q).2 = sumCost q := by
  induction q generalizing toSell with
  | nil => simp [sellLoop_nil, sumCost]
  | cons lot rest ih =>
    obtain ⟨a, c⟩ := lot
    rw [sellLoop_cons]
    by_cases h0 : 0 < toSell
    · by_cases hle : a ≤ toSell
      · rw [if_pos h0, if_pos hle]
        have := ih (toSell - a)
        simp only [sumCost, List.map_cons, List.sum_cons] at *
        linarith
      · rw [if_pos h0, if_neg hle]
        simp only [sumCost, List.map_cons, List.sum_cons]
        ring
    · rw [if_neg h0]
      simp [sumCost]

/-- Positivity of lot amounts is preserved by one pass of the sell
loop: the partial branch re-inserts `fifo_amount - toSell > 0`. -/
theorem sellLoop_preserves_pos (toSell : ℚ) (q : List (ℚ × ℚ))
    (h : ∀ lot ∈ q, 0 < lot.1) :
    ∀ lot ∈ (sellLoop toSell q).2, 0 < lot.1 := by
  induction q generalizing toSell with
  | nil => simp [sellLoop_nil]
  | cons lot rest ih =>
    obtain ⟨a, c⟩ := lot
    have hrest : ∀ lot ∈ rest, 0 < lot.1 := fun l hl => h l (List.mem_cons_of_mem _ hl)
    rw [sellLoop_cons]
    by_cases h0 : 0 < toSell
    · by_cases hle : a ≤ toSell
      · rw [if_pos h0, if_pos hle]
        exact ih (toSell - a) hrest
      · rw [if_pos h0, if_neg hle]
        intro l hl
        rcases List.mem_cons.mp hl with hfront | hback
        · subst hfront
          simpa using sub_pos.mpr (not_le.mp hle)
        · exact hrest l hback
    · rw [if_neg h0]
      exact h

/-- Balance bookkeeping invariant preserved through a fold of
`stepTrade`. -/
theorem foldl_balance_invariant (year : Option ℕ) (ts : List Trade) :
    ∀ s : EngineState,
      s.balance = s.total_buy_volume_base - s.total_sell_volume_base →
      (ts.foldl (stepTrade year) s).balance
        = (ts.foldl (stepTrade year) s).total_buy_volume_base
          - (ts.foldl (stepTrade year) s).total_sell_volume_base := by
  induction ts with
  | nil => intro s hs; simpa using hs
  | cons t ts ih =>
    intro s hs
    rw [List.foldl_cons]
    apply ih
    by_cases hb : t.side = "buy"
    · rw [stepTrade_buy year s t hb]; simp; linarith
    · by_cases hsl : t.side = "sell"
      · rw [stepTrade_sell year s t hsl]; simp; linarith
      · rw [stepTrade_other year s t hb hsl]; simpa using hs

/-- Quote-currency cost conservation invariant preserved through a fold
of `stepTrade`. -/
theorem foldl_cost_invariant (year : Option ℕ) (ts : List Trade) :
    ∀ s : EngineState,
      s.total_buy_volume_quote
        = s.total_cost_of_sold_assets + sumCost s.fifo_queue →
      (ts.foldl (stepTrade year) s).total_buy_volume_quote
        = (ts.foldl (stepTrade year) s).total_cost_of_sold_assets
          + sumCost (ts.foldl (stepTrade year) s).fifo_queue := by
  induction ts with
  | nil => intro s hs; simpa using hs
  | cons t ts ih =>
    intro s hs
    rw [List.foldl_cons]
    apply ih
    by_cases hb : t.side = "buy"
    · rw [stepTrade_buy year s t hb]
      simp only [sumCost, List.map_append, List.sum_append, List.map_cons,
        List.sum_cons, List.map_nil, List.sum_nil]
      simp only [sumCost] at hs
      linarith
    · by_cases hsl : t.side = "sell"
      · rw [stepTrade_sell year s t hsl]
        have hc := sellLoop_conserves_cost t.vol s.fifo_queue
        simp only []
        linarith
      · rw [stepTrade_other year s t hb hsl]; simpa using hs

/-- Positivity of all queued lot amounts preserved through a fold of
`stepTrade`, given positive trade volumes. -/
theorem foldl_pos_invariant (year : Option ℕ) (ts : List Trade) :
    ∀ s : EngineState, (∀ t ∈ ts, 0 < t.vol) →
      (∀ lot ∈ s.fifo_queue, 0 < lot.1) →
      ∀ lot ∈ (ts.foldl (stepTrade year) s).fifo_queue, 0 < lot.1 := by
  induction ts with
  | nil => intro s _ hq; simpa using hq
  | cons t ts ih =>
    intro s hvol hq
    rw [List.foldl_cons]
    refine ih _ (fun u hu => hvol u (List.mem_cons_of_mem _ hu)) ?_
    by_cases hb : t.side = "buy"
    · rw [stepTrade_buy year s t hb]
      intro l hl
      rcases List.mem_append.mp hl with hin | hnew
      · exact hq l hin
      · rcases List.mem_singleton.mp hnew with rfl
        simpa using hvol t (List.mem_cons_self _ _)
    · by_cases hsl : t.side = "sell"
      · rw [stepTrade_sell year s t hsl]
        exact sellLoop_preserves_pos t.vol s.fifo_queue hq
      · rw [stepTrade_other year s t hb hsl]; simpa using hq

/-- Claim C5: the final balance equals total buy volume (base) minus total
sell volume (base), exactly, for every trade sequence and either year
setting. -/
theorem balance_identity (trades : List Trade) (year : Option ℕ) :
    (compute_fifo_pnl trades year).balance
      = (compute_fifo_pnl trades year).total_buy_volume_base
        - (compute_fifo_pnl trades year).total_sell_volume_base := by
  simpa [compute_fifo_pnl, finalState] using
    foldl_balance_invariant year trades initState (by simp [initState])

/-- Claim C9: when every trade volume is positive, every lot in the FIFO
queue after any number of processed trades has a strictly positive
amount: buys push positive lots, full consumption removes the popped
lot, and partial consumption re-inserts a strictly positive remainder
at the front. -/
theorem queue_amounts_positive (trades : List Trade) (year : Option ℕ)
    (hvol : ∀ t ∈ trades, 0 < t.vol) (n : ℕ) :
    ∀ lot ∈ ((trades.take n).foldl (stepTrade year) initState).fifo_queue, 0 < lot.1 := by
  refine foldl_pos_invariant year (trades.take n) initState ?_ ?_
  · exact fun t ht => hvol t (List.take_subset n trades ht)
  · simp [initState]

/-- Concrete trade used by the C9 witness: a buy of 2 units at price 3
with fee 1, producing lot (2, 7). -/
def tradeC9 : Trade :=
  ⟨"TX2", "XXBTZEUR", 1717200000, "buy", 3, 1, 2, 6, "limit"⟩

/-- Witness for C9: after the single buy `tradeC9` the queue holds lot
(2, 7) and its amount is positive. -/
theorem queue_amounts_positive_witness :
    ((2:ℚ), (7:ℚ)) ∈ (([tradeC9].take 1).foldl (stepTrade none) initState).fifo_queue
    ∧ (0:ℚ) < ((2:ℚ), (7:ℚ)).1 :=
  ⟨by norm_num [tradeC9, stepTrade, initState],
   queue_amounts_positive [tradeC9] none
     (by simp [tradeC9]) 1 ((2:ℚ), (7:ℚ))
     (by norm_num [tradeC9, stepTrade, initState])⟩

/-- Claim C10: exact cost conservation: after any prefix of the trade
sequence, the accumulated quote-currency buy volume equals the
accumulated cost of sold assets plus the cost still sitting in the FIFO
queue. -/
theorem cost_conservation (trades : List Trade) (year : Option ℕ) (n : ℕ) :
    ((trades.take n).foldl (stepTrade year) initState).total_buy_volume_quote
      = ((trades.take n).foldl (stepTrade year) initState).total_cost_of_sold_assets
        + sumCost ((trades.take n).foldl (stepTrade year) initState).fifo_queue := by
  exact foldl_cost_invariant year (trades.take n) initState (by simp [initState, sumCost])

/-- Observation of the engine: the list of (calendar year, pnl) pairs
the engine attributes to the successive sells of a trade list, starting
from a given queue.  The queue evolves exactly as in `stepTrade`. -/
def sellPnlList (q : List (ℚ × ℚ)) : List Trade → List (ℤ × ℚ)
  | [] => []
  | t :: ts =>
    if t.side = "buy" then
      sellPnlList (q ++ [(t.vol, t.vol * t.price + t.fee)]) ts
    else if t.side = "sell" then
      (tradeYearOf t.time, (t.vol * t.price - t.fee) - (sellLoop t.vol q).1)
        :: sellPnlList (sellLoop t.vol q).2 ts
    else sellPnlList q ts

/-- Sum of the pnl entries whose calendar year equals `Y`. -/
def yearSum (Y : ℤ) : List (ℤ × ℚ) → ℚ
  | [] => 0
  | p :: ps => (if p.1 = Y then p.2 else 0) + yearSum Y ps

/-- Realized PnL accumulated by a year-filtered run: the fold adds
exactly the pnl of the sells whose derived calendar year matches. -/
theorem foldl_realized_some (Y : ℕ) (ts : List Trade) :
    ∀ s : EngineState,
      (ts.foldl (stepTrade (some Y)) s).realized_pnl
        = s.realized_pnl + yearSum (Y : ℤ) (sellPnlList s.fifo_queue ts) := by
  induction ts with
  | nil => intro s; simp [yearSum, sellPnlList]
  | cons t ts ih =>
    intro s
    rw [List.foldl_cons, ih]
    by_cases hb : t.side = "buy"
    · rw [stepTrade_buy (some Y) s t hb]
      simp [sellPnlList, hb]
    · by_cases hsl : t.side = "sell"
      · rw [stepTrade_sell (some Y) s t hsl]
        simp only [sellPnlList, hb, hsl, if_false, if_true, reduceIte, yearSum]
        ring
      · rw [stepTrade_other (some Y) s t hb hsl]
        simp [sellPnlList, hb, hsl]

/-- Setting the realized-PnL field of a state to zero; two states are
`eraseRealized`-equal exactly when they agree on every other field. -/
def eraseRealized (s : EngineState) : EngineState :=
  { s with realized_pnl := 0 }

/-- Field equalities packed in an `eraseRealized` equality. -/
theorem eraseRealized_fields {s₁ s₂ : EngineState}
    (h : eraseRealized s₁ = eraseRealized s₂) :
    s₁.fifo_queue = s₂.fifo_queue ∧ s₁.balance = s₂.balance ∧ s₁.price = s₂.price
    ∧ s₁.total_buy_volume_base = s₂.total_buy_volume_base
    ∧ s₁.total_sell_volume_base = s₂.total_sell_volume_base
    ∧ s₁.total_buy_volume_quote = s₂.total_buy_volume_quote
    ∧ s₁.total_sell_volume_quote = s₂.total_sell_volume_quote
    ∧ s₁.total_cost_of_sold_assets = s₂.total_cost_of_sold_assets
    ∧ s₁.total_value_of_sold_assets = s₂.total_value_of_sold_assets := by
  unfold eraseRealized at h
  simp only [EngineState.mk.injEq] at h
  exact ⟨h.1, h.2.2.1, h.2.2.2.1, h.2.2.2.2.1, h.2.2.2.2.2.1, h.2.2.2.2.2.2.1,
    h.2.2.2.2.2.2.2.1, h.2.2.2.2.2.2.2.2.1, h.2.2.2.2.2.2.2.2.2⟩

/-- One step of the engine acts identically on everything except the
realized-PnL accumulator, whatever the year filter. -/
theorem stepTrade_erased_congr (y₁ y₂ : Option ℕ) (s₁ s₂ : EngineState) (t : Trade)
    (h : eraseRealized s₁ = eraseRealized s₂) :
    eraseRealized (stepTrade y₁ s₁ t) = eraseRealized (stepTrade y₂ s₂ t) := by
  obtain ⟨hq, hb, hp, h1, h2, h3, h4, h5, h6⟩ := eraseRealized_fields h
  by_cases hbuy : t.side = "buy"
  · rw [stepTrade_buy y₁ s₁ t hbuy, stepTrade_buy y₂ s₂ t hbuy]
    unfold eraseRealized
    ext <;> simp [hq, hb, hp, h1, h2, h3, h4, h5, h6]
  · by_cases hsell : t.side = "sell"
    · rw [stepTrade_sell y₁ s₁ t hsell, stepTrade_sell y₂ s₂ t hsell]
      unfold eraseRealized
      ext <;> simp [hq, hb, hp, h1, h2, h3, h4, h5, h6]
    · rw [stepTrade_other y₁ s₁ t hbuy hsell, stepTrade_other y₂ s₂ t hbuy hsell]
      unfold eraseRealized
      ext <;> simp [hq, hb, hp, h1, h2, h3, h4, h5, h6]

/-- A whole fold of the engine acts identically on everything except
the realized-PnL accumulator, whatever the year filter. -/
theorem foldl_erased_congr (y₁ y₂ : Option ℕ) (ts : List Trade) :
    ∀ s₁ s₂ : EngineState, eraseRealized s₁ = eraseRealized s₂ →
      eraseRealized (ts.foldl (stepTrade y₁) s₁)
        = eraseRealized (ts.foldl (stepTrade y₂) s₂) := by
  induction ts with
  | nil => intro s₁ s₂ h; simpa using h
  | cons t ts ih =>
    intro s₁ s₂ h
    rw [List.foldl_cons, List.foldl_cons]
    exact ih _ _ (stepTrade_erased_congr y₁ y₂ s₁ s₂ t h)

/-- Claim C3: with a year filter, the realized PnL is exactly the sum of
`proceeds - cost_basis` over the sells whose derived calendar year
equals the filter year, while every other returned statistic coincides
with the unfiltered run. -/
theorem year_filter_realized (trades : List Trade) (Y : ℕ) :
    (compute_fifo_pnl trades (some Y)).realized_pnl
      = yearSum (Y : ℤ) (sellPnlList [] trades)
    ∧ (compute_fifo_pnl trades (some Y)).unrealized_pnl
        = (compute_fifo_pnl trades none).unrealized_pnl
    ∧ (compute_fifo_pnl trades (some Y)).balance
        = (compute_fifo_pnl trades none).balance
    ∧ (compute_fifo_pnl trades (some Y)).total_buy_volume_base
        = (compute_fifo_pnl trades none).total_buy_volume_base
    ∧ (compute_fifo_pnl trades (some Y)).total_sell_volume_base
        = (compute_fifo_pnl trades none).total_sell_volume_base
    ∧ (compute_fifo_pnl trades (some Y)).total_buy_volume_quote
        = (compute_fifo_pnl trades none).total_buy_volume_quote
    ∧ (compute_fifo_pnl trades (some Y)).total_sell_volume_quote
        = (compute_fifo_pnl trades none).total_sell_volume_quote
    ∧ (compute_fifo_pnl trades (some Y)).total_cost_of_sold_assets
        = (compute_fifo_pnl trades none).total_cost_of_sold_assets
    ∧ (compute_fifo_pnl trades (some Y)).total_value_of_sold_assets
        = (compute_fifo_pnl trades none).total_value_of_sold_assets := by
  have herase : eraseRealized (finalState trades (some Y))
      = eraseRealized (finalState trades none) :=
    foldl_erased_congr (some Y) none trades initState initState rfl
  obtain ⟨hq, hb, hp, h1, h2, h3, h4, h5, h6⟩ := eraseRealized_fields herase
  refine ⟨?_, ?_, hb, h1, h2, h3, h4, h5, h6⟩
  · have := foldl_realized_some Y trades initState
    simpa [compute_fifo_pnl, finalState, initState] using this
  · simp only [compute_fifo_pnl]
    rw [hq, hp]

/-- Every branch of the loop body assigns the running price from the
trade (`price = trade.price.parse().unwrap()` runs before the side
test). -/
theorem stepTrade_price (year : Option ℕ) (s : EngineState) (t : Trade) :
    (stepTrade year s t).price = t.price := by
  by_cases hb : t.side = "buy"
  · rw [stepTrade_buy year s t hb]
  · by_cases hsl : t.side = "sell"
    · rw [stepTrade_sell year s t hsl]
    · rw [stepTrade_other year s t hb hsl]

/-- The running price after a fold is the price of the last processed
trade, of whatever side. -/
theorem foldl_price (year : Option ℕ) (ts : List Trade) :
    ∀ s : EngineState,
      (ts.foldl (stepTrade year) s).price = (ts.map Trade.price).getLastD s.price := by
  induction ts with
  | nil => intro s; simp
  | cons t ts ih =>
    intro s
    rw [List.foldl_cons, ih, List.map_cons, List.getLastD_cons, stepTrade_price]

/-- Modelled from the spec wording of the original claim: the price of
the most recently processed trade that is a buy or a sell (0 if there
is none). -/
def lastBuySellPrice (ts : List Trade) : ℚ :=
  ((ts.filter (fun t => t.side == "buy" || t.side == "sell")).map Trade.price).getLastD 0

/-- Price of the most recently processed trade of any side (0 if the
sequence is empty): the value the engine's running `price` variable
holds after the fold. -/
def lastPriceAll (ts : List Trade) : ℚ :=
  (ts.map Trade.price).getLastD 0

/-- Buy of 1.0 unit at price 100 with fee 1 (lot (1, 101)). -/
def tradeBuyC4 : Trade :=
  ⟨"TX3", "XXBTZEUR", 1717200000, "buy", 100, 1, 1, 100, "limit"⟩

/-- Trade whose side is neither buy nor sell, carrying price 200. -/
def tradeOtherC4 : Trade :=
  ⟨"TX4", "XXBTZEUR", 1717200100, "margin", 200, 0, 1, 200, "limit"⟩

/-- Counterexample to C4 as stated: after a buy at price 100 followed
by a side-"margin" trade at price 200, the queue still holds lot
(1, 101) but the code marks it at 200 (unrealized 99), not at the last
buy-or-sell price 100 (which would give -1). -/
theorem unrealized_last_buy_sell_counterexample :
    (compute_fifo_pnl [tradeBuyC4, tradeOtherC4] none).unrealized_pnl
      ≠ (((finalState [tradeBuyC4, tradeOtherC4] none).fifo_queue).map
          (fun lot => (lastBuySellPrice [tradeBuyC4, tradeOtherC4] - lot.2 / lot.1) * lot.1)).sum := by
  simp only [compute_fifo_pnl, finalState, List.foldl_cons, List.foldl_nil]
  simp [stepTrade, initState, unrealizedOf, lastBuySellPrice, tradeBuyC4, tradeOtherC4]
  norm_num

/-- Claim C4 (amended): the unrealized PnL equals the sum over the remaining
lots of `(last_seen_price - lot.cost/lot.amount) * lot.amount`, where
`last_seen_price` is the price of the most recently processed trade of
ANY side (not only buys and sells), and 0 for an empty sequence; for an
empty trade sequence the unrealized PnL is 0. -/
theorem unrealized_marks_last_trade_price (trades : List Trade) (year : Option ℕ) :
    (compute_fifo_pnl trades year).unrealized_pnl
      = (((finalState trades year).fifo_queue).map
          (fun lot => (lastPriceAll trades - lot.2 / lot.1) * lot.1)).sum
    ∧ (compute_fifo_pnl ([] : List Trade) year).unrealized_pnl = 0 := by
  constructor
  · have hp : (finalState trades year).price = lastPriceAll trades := by
      have := foldl_price year trades initState
      simpa [finalState, lastPriceAll, initState] using this
    simp only [compute_fifo_pnl, unrealizedOf, hp]
  · simp [compute_fifo_pnl, finalState, unrealizedOf, initState]

/-- Buy used by the C6 counterexample (lot (1, 101), price 100). -/
def tradeBuyC6 : Trade :=
  ⟨"TX5", "XXBTZEUR", 1717200000, "buy", 100, 1, 1, 100, "limit"⟩

/-- Trade with invalid side "margin" used by the C6 counterexample and
witness; price 200. -/
def tradeOtherC6 : Trade :=
  ⟨"TX6", "XXBTZEUR", 1717200100, "margin", 200, 0, 1, 200, "limit"⟩

/-- Counterexample to C6 as stated: a trade whose side is neither
"buy" nor "sell" is not rejected — appending it to a run changes the
returned statistics (its price becomes the mark price for unrealized
PnL), so the program silently processed it. -/
theorem invalid_side_not_rejected_counterexample :
    compute_fifo_pnl [tradeBuyC6, tradeOtherC6] none
      ≠ compute_fifo_pnl [tradeBuyC6] none := by
  intro h
  have h2 := congrArg PnlResult.unrealized_pnl h
  simp only [compute_fifo_pnl, finalState, List.foldl_cons, List.foldl_nil] at h2
  simp [stepTrade, initState, unrealizedOf, tradeBuyC6, tradeOtherC6] at h2
  norm_num at h2

/-- Claim C6 (amended): a trade whose side is neither "buy" nor "sell" is
not rejected: it is silently ignored by the accounting (queue, balance,
volumes unchanged) while still contributing its price as the last-seen
price used for unrealized-PnL valuation. -/
theorem invalid_side_ignored_updates_price (year : Option ℕ) (s : EngineState)
    (t : Trade) (h1 : t.side ≠ "buy") (h2 : t.side ≠ "sell") :
    stepTrade year s t = { s with price := t.price }
    ∧ (stepTrade year s t).price = t.price
    ∧ (stepTrade year s t).fifo_queue = s.fifo_queue
    ∧ (stepTrade year s t).realized_pnl = s.realized_pnl
    ∧ (stepTrade year s t).balance = s.balance := by
  have h := stepTrade_other year s t h1 h2
  exact ⟨h, by rw [h], by rw [h], by rw [h], by rw [h]⟩

/-- Witness for the amended C6 at the concrete "margin" trade. -/
theorem invalid_side_ignored_updates_price_witness :
    (tradeOtherC6.side ≠ "buy" ∧ tradeOtherC6.side ≠ "sell")
    ∧ stepTrade none initState tradeOtherC6
        = { initState with price := tradeOtherC6.price } :=
  ⟨⟨by decide, by decide⟩,
   (invalid_side_ignored_updates_price none initState tradeOtherC6
     (by decide) (by decide)).1⟩

/-- One page of the closed-orders collection as returned by the remote
API (`OrdersResult` in `src/main.rs`): the order identifiers (keys of
the `closed` map) and the server-reported total `count`. -/
structure OrdersPage where
  closed : List String
  count : ℕ
  deriving DecidableEq, Repr

/-- Closed-orders pagination loop of `fetch_trades` (`src/main.rs`
lines 254–276), over an oracle mapping the request offset to the page
served: extend the collected identifiers with the page's keys; stop
when `result.count <= closed_order_txids.len()`; otherwise repeat at
`offset + 50`.  Fuel bounds the recursion; `none` means the fuel ran
out before the loop stopped. -/
def fetchClosedOrdersLoop (oracle : ℕ → OrdersPage) :
    ℕ → ℕ → List String → Option (List String)
  | 0, _, _ => none
  | fuel + 1, offset, acc =>
    let page := oracle offset
    let acc' := acc ++ page.closed
    if page.count ≤ acc'.length then some acc'
    else fetchClosedOrdersLoop oracle fuel (offset + 50) acc'

/-- Identifiers collected after fetching the first `k` closed-order
pages (offsets 0, 50, …, 50·(k-1)), concatenated in fetch order. -/
def collectedOrders (oracle : ℕ → OrdersPage) : ℕ → List String
  | 0 => []
  | k + 1 => collectedOrders oracle k ++ (oracle (50 * k)).closed

/-- Retention step of `fetch_trades` when a user reference was given
(`src/main.rs` lines 278–281): keep the trades whose `ordertxid` is
contained in the collected closed-order identifiers. -/
def filterByUserref (ids : List String) (trades : List Trade) : List Trade :=
  trades.filter (fun t => ids.contains t.ordertxid)

/-- Running the closed-orders loop from page `m` with the identifiers
of the first `m` pages already collected reaches the stopping page `k`
and returns everything collected up to there. -/
theorem fetchClosedOrdersLoop_run (oracle : ℕ → OrdersPage) (k : ℕ)
    (hstop : (oracle (50 * (k - 1))).count ≤ (collectedOrders oracle k).length)
    (hgo : ∀ j, j + 1 < k →
      (collectedOrders oracle (j + 1)).length < (oracle (50 * j)).count) :
    ∀ fuel m, m < k → k - m ≤ fuel →
      fetchClosedOrdersLoop oracle fuel (50 * m) (collectedOrders oracle m)
        = some (collectedOrders oracle k) := by
  intro fuel
  induction fuel with
  | zero => intro m hm hf; omega
  | succ fuel ih =>
    intro m hm hf
    rw [fetchClosedOrdersLoop]
    have hcol : collectedOrders oracle m ++ (oracle (50 * m)).closed
        = collectedOrders oracle (m + 1) := rfl
    simp only [hcol]
    by_cases hk : m + 1 = k
    · subst hk
      rw [if_pos (by simpa using hstop)]
    · have hmk : m + 1 < k := by omega
      rw [if_neg (by exact not_le.mpr (hgo m hmk))]
      have h50 : 50 * m + 50 = 50 * (m + 1) := by ring
      rw [h50]
      exact ih (m + 1) hmk (by omega)

/-- Claim C7 (amended): with a user-reference filter, the closed-orders loop
terminates exactly when the number of order identifiers collected so
far — counted with multiplicity, duplicates across pages included —
reaches the most recent page's reported total count (the condition
fails at every earlier page and holds at the stopping page), and the
retained trades are exactly those whose order id is a member of the
collected identifier list. -/
theorem closed_orders_pagination (oracle : ℕ → OrdersPage) (trades : List Trade)
    (k fuel : ℕ) (hk : 0 < k) (hfuel : k ≤ fuel)
    (hstop : (oracle (50 * (k - 1))).count ≤ (collectedOrders oracle k).length)
    (hgo : ∀ j, j + 1 < k →
      (collectedOrders oracle (j + 1)).length < (oracle (50 * j)).count) :
    fetchClosedOrdersLoop oracle fuel 0 [] = some (collectedOrders oracle k)
    ∧ ∀ t, t ∈ filterByUserref (collectedOrders oracle k) trades
        ↔ (t ∈ trades ∧ t.ordertxid ∈ collectedOrders oracle k) := by
  constructor
  · have h := fetchClosedOrdersLoop_run oracle k hstop hgo fuel 0 hk (by omega)
    simpa [collectedOrders] using h
  · intro t
    simp [filterByUserref, List.mem_filter]

/-- Closed-orders oracle whose two pages repeat the same identifier:
page 0 is (["OID1"], total 2), every later page is also (["OID1"], 2). -/
def dupOracle : ℕ → OrdersPage := fun _ => ⟨["OID1"], 2⟩

/-- Counterexample to C7 as stated: against `dupOracle` the loop
terminates (after two pages, having collected ["OID1", "OID1"]) even
though only 1 < 2 distinct identifiers were collected — the code
compares the length of the collected list, duplicates included, not
the number of distinct identifiers. -/
theorem closed_orders_distinct_counterexample :
    fetchClosedOrdersLoop dupOracle 5 0 [] = some ["OID1", "OID1"]
    ∧ (["OID1", "OID1"] : List String).dedup.length < (dupOracle 50).count := by
  constructor
  · rfl
  · decide

/-- Closed-orders oracle for the C7 witness: page 0 serves ["A"]
(total 3), page 50 serves ["B", "C"] (total 3). -/
def oracleC7 : ℕ → OrdersPage := fun o => if o = 0 then ⟨["A"], 3⟩ else ⟨["B", "C"], 3⟩

/-- Trade whose order id "B" is among the collected identifiers. -/
def tradeC7 : Trade :=
  ⟨"B", "XXBTZEUR", 1717200000, "buy", 100, 1, 1, 100, "limit"⟩

/-- Witness for the amended C7: two pages are fetched, the loop returns
["A", "B", "C"], and the membership characterization holds at
`tradeC7`. -/
theorem closed_orders_pagination_witness :
    fetchClosedOrdersLoop oracleC7 5 0 [] = some (collectedOrders oracleC7 2)
    ∧ (tradeC7 ∈ filterByUserref (collectedOrders oracleC7 2) [tradeC7]
        ↔ (tradeC7 ∈ [tradeC7] ∧ tradeC7.ordertxid ∈ collectedOrders oracleC7 2)) := by
  have hgo : ∀ j, j + 1 < 2 →
      (collectedOrders oracleC7 (j + 1)).length < (oracleC7 (50 * j)).count := by
    intro j hj
    have hj0 : j = 0 := by omega
    subst hj0
    decide
  have h := closed_orders_pagination oracleC7 [tradeC7] 2 5 (by omega) (by omega)
    (by decide) hgo
  exact ⟨h.1, h.2 tradeC7⟩

/-- One page of the trade-history collection as returned by the remote
API (`TradesResult` in `src/main.rs`): the trade records and the
server-reported total `count`. -/
structure TradesPage where
  trades : List Trade
  count : ℕ

/-- Trace of the trade-history pagination loop: the accumulated
symbol-filtered trades, the offsets requested, and how many inter-page
sleeps were performed. -/
structure FetchTrace where
  trades : List Trade
  offsets : List ℕ
  sleeps : ℕ
  deriving DecidableEq, Repr

/-- Trade-history pagination loop of `fetch_trades` (`src/main.rs`
lines 215–242), over an oracle mapping the request offset to the page
served: keep the records whose `pair` equals the symbol, stop when
`result.count <= offset + 50`, otherwise sleep and repeat at
`offset + 50`.  The trace records offsets and sleeps; fuel bounds the
recursion. -/
def fetchTradesLoop (oracle : ℕ → TradesPage) (symbol : String) :
    ℕ → ℕ → List Trade → Option FetchTrace
  | 0, _, _ => none
  | fuel + 1, offset, acc =>
    let page := oracle offset
    let acc' := acc ++ page.trades.filter (fun t => t.pair == symbol)
    if page.count ≤ offset + 50 then some ⟨acc', [offset], 0⟩
    else
      match fetchTradesLoop oracle symbol fuel (offset + 50) acc' with
      | none => none
      | some r => some ⟨r.trades, offset :: r.offsets, r.sleeps + 1⟩

/-- Symbol-filtered trades accumulated after fetching the first `k`
trade pages (offsets 0, 50, …, 50·(k-1)). -/
def collectedTrades (oracle : ℕ → TradesPage) (symbol : String) : ℕ → List Trade
  | 0 => []
  | k + 1 => collectedTrades oracle symbol k
      ++ ((oracle (50 * k)).trades.filter (fun t => t.pair == symbol))

/-- Running the trade loop from page `m` with the first `m` pages
already accumulated reaches the stopping page `k`, recording the
offsets 50·m, …, 50·(k-1) and k-m-1 sleeps. -/
theorem fetchTradesLoop_run (oracle : ℕ → TradesPage) (symbol : String) (k : ℕ)
    (hstop : (oracle (50 * (k - 1))).count ≤ 50 * (k - 1) + 50)
    (hgo : ∀ j, j + 1 < k → 50 * j + 50 < (oracle (50 * j)).count) :
    ∀ fuel m, m < k → k - m ≤ fuel →
      fetchTradesLoop oracle symbol fuel (50 * m) (collectedTrades oracle symbol m)
        = some ⟨collectedTrades oracle symbol k,
                (List.range (k - m)).map (fun i => 50 * (m + i)), k - m - 1⟩ := by
  intro fuel
  induction fuel with
  | zero => intro m hm hf; omega
  | succ fuel ih =>
    intro m hm hf
    rw [fetchTradesLoop]
    have hcol : collectedTrades oracle symbol m
        ++ ((oracle (50 * m)).trades.filter (fun t => t.pair == symbol))
        = collectedTrades oracle symbol (m + 1) := rfl
    simp only [hcol]
    by_cases hk : m + 1 = k
    · subst hk
      rw [if_pos (by simpa using hstop)]
      simp
      rw [show (1:ℕ) = 0 + 1 from rfl, List.range_succ]
      simp
    · have hmk : m + 1 < k := by omega
      rw [if_neg (by exact not_le.mpr (hgo m hmk))]
      have h50 : 50 * m + 50 = 50 * (m + 1) := by ring
      rw [h50, ih (m + 1) hmk (by omega)]
      have hoff : 50 * m :: (List.range (k - (m + 1))).map (fun i => 50 * (m + 1 + i))
          = (List.range (k - m)).map (fun i => 50 * (m + i)) := by
        have hkm : k - m = (k - (m + 1)) + 1 := by omega
        rw [hkm, List.range_succ_eq_map, List.map_cons, List.map_map]
        refine congrArg₂ List.cons (by simp) ?_
        refine List.map_congr_left (fun a _ => ?_)
        simp [Function.comp]
        ring
      have hsl : k - (m + 1) - 1 + 1 = k - m - 1 := by omega
      simp only [hoff, hsl]

/-- Claim C8: the trade-history loop requests offsets increasing by the page
size 50 and stops exactly when the server-reported total count is at
most `offset + 50` — the condition fails at every earlier offset and
holds at the stopping one; page contents (even empty pages) are
irrelevant to termination.  The trace records the requested offsets
0, 50, …, 50·(k-1), the symbol-filtered accumulated trades, and k-1
inter-page sleeps: the delay is skipped after the final page. -/
theorem trades_pagination (oracle : ℕ → TradesPage) (symbol : String)
    (k fuel : ℕ) (hk : 0 < k) (hfuel : k ≤ fuel)
    (hstop : (oracle (50 * (k - 1))).count ≤ 50 * (k - 1) + 50)
    (hgo : ∀ j, j + 1 < k → 50 * j + 50 < (oracle (50 * j)).count) :
    fetchTradesLoop oracle symbol fuel 0 []
      = some ⟨collectedTrades oracle symbol k,
              (List.range k).map (fun i => 50 * i), k - 1⟩ := by
  have h := fetchTradesLoop_run oracle symbol k hstop hgo fuel 0 hk (by omega)
  have hz : (List.range (k - 0)).map (fun i => 50 * (0 + i))
      = (List.range k).map (fun i => 50 * i) := by
    simp
  rw [show (50 * 0 : ℕ) = 0 from rfl] at h
  rw [show collectedTrades oracle symbol 0 = [] from rfl] at h
  rw [hz] at h
  rw [show (k - 0 : ℕ) = k from rfl] at h
  exact h

/-- Trade-history oracle reporting a constant total count of 120 and
serving empty pages. -/
def oracle120 : ℕ → TradesPage := fun _ => ⟨[], 120⟩

/-- Witness for C8 at total_count = 120: exactly 3 page requests at
offsets 0, 50 and 100, with 2 inter-page sleeps (the delay after the
final page is skipped), even though every page is empty. -/
theorem trades_pagination_witness :
    fetchTradesLoop oracle120 "XXBTZEUR" 3 0 [] = some ⟨[], [0, 50, 100], 2⟩ := by
  have hgo : ∀ j, j + 1 < 3 → 50 * j + 50 < (oracle120 (50 * j)).count := by
    intro j hj
    have hj' : j = 0 ∨ j = 1 := by omega
    rcases hj' with rfl | rfl <;> decide
  have h := trades_pagination oracle120 "XXBTZEUR" 3 3 (by omega) (by omega)
    (by decide) hgo
  rw [h]
  rfl

end KrakenPnl
